import Mathlib

/-!
Verification of the oligomer-counting / Markov-background core of the
word-analysis tool.  The embedding follows `src/lib/markov.c` and the main
loop of `src/word-analysis/main.c`.  C `char *` sequence buffers are
modelled as total maps `ℕ → Char` (a read the C code never performs is
irrelevant to every statement below); the heap arrays `S` and `T` of a
Markov model are modelled as total maps `ℤ → ℚ` (C indexes them with
`int` expressions), with `double` arithmetic idealised as exact rational
arithmetic.  A `List Char` is turned into such a buffer by `strFn`.
-/

namespace WordAnalysis

/-- The character at a position of a string buffer; positions past the end
of the backing list read as `'*'`, an arbitrary non-alphabet character
(no statement below reads past the end of a buffer). -/
def strFn (l : List Char) (i : ℕ) : Char := l.getD i '*'

/-- markov.c `char2int`: symbol value of a nucleotide character,
case-insensitive, `-1` for a character outside the alphabet. -/
def char2int (c : Char) : ℤ :=
  if c = 'a' ∨ c = 'A' then 0
  else if c = 'c' ∨ c = 'C' then 1
  else if c = 'g' ∨ c = 'G' then 2
  else if c = 't' ∨ c = 'T' then 3
  else -1

/-- markov.c `oligo2index_char`: base-4 forward encoding of the window of
`l` characters starting at `pos`, most-significant symbol first; `-1` when
some character of the window is outside the alphabet.  The C loop runs
`i = l-1, …, 0` accumulating `value += S * v; S *= 4`; the recursion peels
the last position (the first one the C loop visits). -/
def oligo2index_char (seq : ℕ → Char) (pos : ℕ) : ℕ → ℤ
  | 0 => 0
  | l + 1 =>
    let v := char2int (seq (pos + l))
    if v = -1 then -1
    else
      let r := oligo2index_char seq pos l
      if r = -1 then -1 else 4 * r + v

/-- markov.c `oligo2index_rc_char`: reverse-complement encoding of the
window of `l` characters starting at `pos`; the C loop runs `i = 0, …, l-1`
accumulating `value += S * (3 - v); S *= 4`, so the recursion peels the
first position. -/
def oligo2index_rc_char (seq : ℕ → Char) (pos : ℕ) : ℕ → ℤ
  | 0 => 0
  | l + 1 =>
    let v := char2int (seq pos)
    if v = -1 then -1
    else
      let r := oligo2index_rc_char seq (pos + 1) l
      if r = -1 then -1 else (3 - v) + 4 * r

/-- The additive floor `1e-100` that `new_markov` writes into every entry
of `S` and `T`. -/
def eps : ℚ := 1 / 10 ^ 100

/-- markov.c `markov_t`: order, stationary vector `S` (C size `4^order`)
and flattened transition matrix `T` (C size `4^order * 4`, entry
`T[4*prefix+suffix]`), both modelled as total maps on the `int` index. -/
structure Markov where
  order : ℕ
  S : ℤ → ℚ
  T : ℤ → ℚ

/-- markov.c `new_markov`: every entry of `S` and `T` starts at the
floor `1e-100`. -/
def new_markov (ord : ℕ) : Markov :=
  { order := ord, S := fun _ => eps, T := fun _ => eps }

/-- The loop of markov.c `markov_P`: `for (i = order; i < length; i++)`
multiplies `p` by `T[4*prefix+suffix]` where `suffix = char2int(seq[i])`
and `prefix = oligo2index_char(seq, i - order, order)` (absolute positions,
independent of the `pos` argument), returning `0` as soon as either
encoding fails.  `fuel` is the number of remaining iterations
(`length - i` at entry). -/
def markovLoop (T : ℤ → ℚ) (ord : ℕ) (seq : ℕ → Char) : ℕ → ℕ → ℚ → ℚ
  | 0, _, p => p
  | fuel + 1, i, p =>
    let sfx := char2int (seq i)
    let pre := oligo2index_char seq (i - ord) ord
    if sfx = -1 ∨ pre = -1 then 0
    else markovLoop T ord seq fuel (i + 1) (p * T (4 * pre + sfx))

/-- markov.c `markov_P`: plain-form likelihood.  The initial factor is
`S[oligo2index_char(seq, pos, length - 1)]` (note: `length - 1` symbols,
and the only use of `pos`); the loop then runs `i = order, …, length - 1`
over absolute positions. -/
def markov_P (m : Markov) (seq : ℕ → Char) (pos length : ℕ) : ℚ :=
  let pre := oligo2index_char seq pos (length - 1)
  if pre = -1 then 0
  else markovLoop m.T m.order seq (length - m.order) m.order (m.S pre)

/-- Pointwise update of a heap array modelled as a total map. -/
def update (f : ℤ → ℚ) (i : ℤ) (v : ℚ) : ℤ → ℚ := fun j => if j = i then v else f j

/-- One iteration of the reading loop of markov.c `load_markov` on a parsed
data line `(id, freq)`: `S[prefix_index] += freq` and
`T[4 * prefix_index + char2int(id[order])] = freq` (plain assignment),
where `prefix_index = oligo2index_char(id, 0, order)`. -/
def loadStep (m : Markov) (line : List Char × ℚ) : Markov :=
  let p := oligo2index_char (strFn line.1) 0 m.order
  { m with
    S := update m.S p (m.S p + line.2),
    T := update m.T (4 * p + char2int (strFn line.1 m.order)) line.2 }

/-- Sum of the four entries of row `r` of a flattened transition matrix. -/
def rowSumT (T : ℤ → ℚ) (r : ℕ) : ℚ := ∑ j in Finset.range 4, T (4 * (r : ℤ) + (j : ℤ))

/-- The normalisation pass of markov.c `load_markov`: every `S` entry in
range is divided by the total of `S[0..4^order)`, and every `T` entry in
range is divided by the sum of the four entries of its row (row of index
`k` is `k / 4`). -/
def normalizeMarkov (m : Markov) : Markov :=
  let size : ℕ := 4 ^ m.order
  let ssum : ℚ := ∑ i in Finset.range size, m.S (i : ℤ)
  { m with
    S := fun i => if 0 ≤ i ∧ i < (size : ℤ) then m.S i / ssum else m.S i,
    T := fun k =>
      if 0 ≤ k ∧ k < 4 * (size : ℤ) then m.T k / rowSumT m.T (k.toNat / 4) else m.T k }

/-- markov.c `load_markov`, on the list of parsed data lines `(id, freq)`
of the frequency file (file I/O, `skip_comments` and `fscanf` parsing are
the peripheral part; the data content of the file is the input here).  On
an empty file the C code dereferences the null model, so the result is
`none`; otherwise the model order is the length of the first identifier
minus one, all lines are accumulated by `loadStep`, and the result is
normalised. -/
def load_markov (lines : List (List Char × ℚ)) : Option Markov :=
  match lines with
  | [] => none
  | first :: rest =>
      some (normalizeMarkov ((first :: rest).foldl loadStep (new_markov (first.1.length - 1))))

/-- Letter of a symbol value (A, C, G, T for 0, 1, 2, 3). -/
def int2char (v : ℕ) : Char :=
  if v = 0 then 'A' else if v = 1 then 'C' else if v = 2 then 'G' else 'T'

/-- Modelled from the spec: `decode(index, length) → string`, the inverse of
the forward encoding, "base-4 digit expansion most-significant-first,
mapped back to letters".  (The C functions `index2oligo` and
`index2oligo_char` live in count.c, which is not part of the sources.) -/
def index2oligo : ℕ → ℕ → List Char
  | _, 0 => []
  | idx, l + 1 => index2oligo (idx / 4) l ++ [int2char (idx % 4)]

/-- The complement of a nucleotide letter, as the claims put it:
"complementing each symbol (A↔T, C↔G)", case-insensitive; characters
outside the alphabet are left unchanged. -/
def compChar (c : Char) : Char :=
  if c = 'a' ∨ c = 'A' then 'T'
  else if c = 'c' ∨ c = 'C' then 'G'
  else if c = 'g' ∨ c = 'G' then 'C'
  else if c = 't' ∨ c = 'T' then 'A'
  else c

/-- The reverse-complement of a string, following the claims' words: the
string obtained by complementing each symbol and reversing their order. -/
def specRevComp (l : List Char) : List Char := (l.map compChar).reverse

/-- Modelled from the spec: `index2oligo_rc_char` (count.c, not in the
sources) writes the reverse complement of the decoded oligomer; only the
`id` output column uses it. -/
def index2oligo_rc (idx l : ℕ) : List Char := specRevComp (index2oligo idx l)

/-- word-analysis `count_t` as read by the main loop: `count_table` maps an
oligomer index to its occurrence count, plus `position_count`,
`test_count`, and the per-index palindromic flags.  The construction code
(count.c `new_count` / `count_occ`) is not part of the sources, so the
fields are unconstrained data here. -/
structure CountTable where
  size : ℕ
  count_table : ℕ → ℕ
  position_count : ℕ
  test_count : ℕ
  palindromic : ℕ → Bool

/-- Truncation of a rational toward zero: the effect of C's conversion of
a `double` to a `long` (main.c stores `n_exp = N * p` into a `long`). -/
def truncQ (x : ℚ) : ℤ := if 0 ≤ x then ⌊x⌋ else ⌈x⌉

/-- One output record of the word-analysis main loop; `idx` is the loop
index `i` (the oligomer index, which also determines the printed `name`
via `index2oligo`), `col3` is the third printed column (`p` in enrichment
mode, the observed frequency in count-only mode). -/
structure Row where
  idx : ℕ
  name : List Char
  id : List Char
  col3 : ℚ
  occ : ℕ
  n_exp : ℤ
  pv : ℚ
  ev : ℚ
  sig : ℚ
deriving DecidableEq

/-- The body of the per-oligomer loop of word-analysis main.c for index
`i` (reached only when `count_table[i] ≠ 0`): observed count `n`, frozen
totals `N`, decode, optional reverse-complement id, and in enrichment
mode the background probability (doubled when folding is on and the
oligomer is not palindromic), `n_exp = N * p` stored into a `long`
(truncation), `pv = pbinom(n, N, p)`, `ev = pv * test_count`,
`sig = -log10(ev)`.  `pbinomF` (binomial.c) and `log10F` are the
numerical externals, passed as parameters; in count-only mode the
enrichment variables keep their C initial values (1, 1, 1, 0). -/
def mkRow (bg : Markov) (pbinomF : ℕ → ℕ → ℚ → ℚ) (log10F : ℚ → ℚ)
    (ct : CountTable) (L : ℕ) (rc co : Bool) (i : ℕ) : Row :=
  let n := ct.count_table i
  let N := ct.position_count
  let freq : ℚ := (n : ℚ) / (N : ℚ)
  let oligo := index2oligo i L
  let name := index2oligo i L
  let name_rc := index2oligo_rc i L
  let id := if rc = true then name ++ '|' :: name_rc else name
  if co = true then
    { idx := i, name := name, id := id, col3 := freq, occ := n,
      n_exp := 1, pv := 1, ev := 1, sig := 0 }
  else
    let p0 := markov_P bg (strFn oligo) 0 L
    let p := if rc = true ∧ ct.palindromic i = false then 2 * p0 else p0
    let ne := truncQ ((N : ℚ) * p)
    let pv := pbinomF n N p
    let ev := pv * (ct.test_count : ℚ)
    { idx := i, name := name, id := id, col3 := p, occ := n,
      n_exp := ne, pv := pv, ev := ev, sig := - log10F ev }

/-- The output of the word-analysis main loop: one record per oligomer
index `i = 0, …, size - 1` in that order, skipping (`continue`) every
index with `count_table[i] == 0`. -/
def outputRows (bg : Markov) (pbinomF : ℕ → ℕ → ℚ → ℚ) (log10F : ℚ → ℚ)
    (ct : CountTable) (L : ℕ) (rc co : Bool) : List Row :=
  (List.range ct.size).filterMap fun i =>
    if ct.count_table i = 0 then none else some (mkRow bg pbinomF log10F ct L rc co i)

/-- Every character of the window of length `l` at `pos` encodes. -/
def validWin (seq : ℕ → Char) (pos l : ℕ) : Prop :=
  ∀ i, i < l → char2int (seq (pos + i)) ≠ -1

/-- Every character of the list encodes. -/
def validList (l : List Char) : Prop := ∀ c ∈ l, char2int c ≠ -1

instance validList.instDecidable (l : List Char) : Decidable (validList l) := by
  unfold validList
  infer_instance

theorem char2int_cases (c : Char) :
    char2int c = -1 ∨ (0 ≤ char2int c ∧ char2int c < 4) := by
  unfold char2int; split_ifs <;> norm_num

theorem char2int_range (c : Char) (h : char2int c ≠ -1) :
    0 ≤ char2int c ∧ char2int c < 4 :=
  (char2int_cases c).resolve_left h

theorem char2int_compChar (c : Char) (h : char2int c ≠ -1) :
    char2int (compChar c) = 3 - char2int c := by
  by_cases h1 : c = 'a' ∨ c = 'A'
  · rcases h1 with rfl | rfl <;> decide
  · by_cases h2 : c = 'c' ∨ c = 'C'
    · rcases h2 with rfl | rfl <;> decide
    · by_cases h3 : c = 'g' ∨ c = 'G'
      · rcases h3 with rfl | rfl <;> decide
      · by_cases h4 : c = 't' ∨ c = 'T'
        · rcases h4 with rfl | rfl <;> decide
        · refine absurd ?_ h
          unfold char2int
          rw [if_neg h1, if_neg h2, if_neg h3, if_neg h4]

theorem compChar_valid (c : Char) (h : char2int c ≠ -1) :
    char2int (compChar c) ≠ -1 := by
  have h3 := char2int_compChar c h
  have h4 := char2int_range c h
  omega

theorem oligo2index_char_congr (seq seq' : ℕ → Char) (pos pos' : ℕ) :
    ∀ l, (∀ i, i < l → seq (pos + i) = seq' (pos' + i)) →
      oligo2index_char seq pos l = oligo2index_char seq' pos' l := by
  intro l
  induction l with
  | zero => intro _; rfl
  | succ n ih =>
    intro h
    simp only [oligo2index_char]
    rw [h n (by omega), ih (fun i hi => h i (by omega))]

theorem oligo2index_rc_char_congr (seq seq' : ℕ → Char) :
    ∀ l pos pos', (∀ i, i < l → seq (pos + i) = seq' (pos' + i)) →
      oligo2index_rc_char seq pos l = oligo2index_rc_char seq' pos' l := by
  intro l
  induction l with
  | zero => intro _ _ _; rfl
  | succ n ih =>
    intro pos pos' h
    simp only [oligo2index_rc_char]
    have h0 : seq pos = seq' pos' := by simpa using h 0 (by omega)
    rw [h0, ih (pos + 1) (pos' + 1)
      (fun i hi => by
        have := h (i + 1) (by omega)
        rwa [show pos + (i + 1) = pos + 1 + i by omega,
          show pos' + (i + 1) = pos' + 1 + i by omega] at this)]

theorem oligo2index_char_bounds (seq : ℕ → Char) (pos : ℕ) :
    ∀ l, validWin seq pos l →
      0 ≤ oligo2index_char seq pos l ∧ oligo2index_char seq pos l < 4 ^ l := by
  intro l
  induction l with
  | zero => intro _; simp [oligo2index_char]
  | succ n ih =>
    intro h
    have hv : char2int (seq (pos + n)) ≠ -1 := h n (by omega)
    have hvr := char2int_range _ hv
    have hr := ih (fun i hi => h i (by omega))
    simp only [oligo2index_char]
    rw [if_neg hv, if_neg (by omega)]
    have h4 : (4 : ℤ) ^ (n + 1) = 4 * 4 ^ n := by ring
    constructor
    · omega
    · rw [h4]; omega

theorem oligo2index_char_ne_neg_one (seq : ℕ → Char) (pos l : ℕ)
    (h : validWin seq pos l) : oligo2index_char seq pos l ≠ -1 := by
  have := oligo2index_char_bounds seq pos l h
  omega

theorem oligo2index_char_of_invalid (seq : ℕ → Char) (pos : ℕ) :
    ∀ l, (∃ i, i < l ∧ char2int (seq (pos + i)) = -1) →
      oligo2index_char seq pos l = -1 := by
  intro l
  induction l with
  | zero => rintro ⟨i, hi, _⟩; omega
  | succ n ih =>
    rintro ⟨i, hi, hbad⟩
    simp only [oligo2index_char]
    by_cases hn : char2int (seq (pos + n)) = -1
    · rw [if_pos hn]
    · rw [if_neg hn]
      have hin : i < n := by
        rcases Nat.lt_succ_iff_lt_or_eq.mp hi with h' | h'
        · exact h'
        · exact absurd (h' ▸ hbad) hn
      rw [ih ⟨i, hin, hbad⟩, if_pos rfl]

theorem validWin_of_ne_neg_one (seq : ℕ → Char) (pos l : ℕ)
    (h : oligo2index_char seq pos l ≠ -1) : validWin seq pos l := by
  intro i hi
  intro hbad
  exact h (oligo2index_char_of_invalid seq pos l ⟨i, hi, hbad⟩)

theorem oligo2index_char_eq_sum (seq : ℕ → Char) (pos : ℕ) :
    ∀ l, validWin seq pos l →
      oligo2index_char seq pos l
        = ∑ i in Finset.range l, char2int (seq (pos + i)) * 4 ^ (l - 1 - i) := by
  intro l
  induction l with
  | zero => intro _; simp [oligo2index_char]
  | succ n ih =>
    intro h
    have hv : char2int (seq (pos + n)) ≠ -1 := h n (by omega)
    have hnn := oligo2index_char_ne_neg_one seq pos n (fun i hi => h i (by omega))
    simp only [oligo2index_char]
    rw [if_neg hv, if_neg hnn, ih (fun i hi => h i (by omega)), Finset.sum_range_succ,
      Finset.mul_sum]
    have hstep : ∀ i ∈ Finset.range n,
        4 * (char2int (seq (pos + i)) * 4 ^ (n - 1 - i))
          = char2int (seq (pos + i)) * 4 ^ (n + 1 - 1 - i) := by
      intro i hi
      have hi' : i < n := Finset.mem_range.mp hi
      have : n + 1 - 1 - i = (n - 1 - i) + 1 := by omega
      rw [this, pow_succ]
      ring
    rw [Finset.sum_congr rfl hstep]
    have : n + 1 - 1 - n = 0 := by omega
    rw [this]
    ring

theorem strFn_lt (l : List Char) (i : ℕ) (h : i < l.length) :
    strFn l i ∈ l := by
  unfold strFn
  rw [List.getD_eq_getElem?_getD, List.getElem?_eq_getElem h]
  exact List.getElem_mem h

theorem validWin_of_validList (l : List Char) (h : validList l) :
    validWin (strFn l) 0 l.length := by
  intro i hi
  rw [Nat.zero_add]
  exact h _ (strFn_lt l i hi)

theorem strFn_cons_succ (c : Char) (l : List Char) (i : ℕ) :
    strFn (c :: l) (i + 1) = strFn l i := rfl

theorem strFn_append_lt (l₁ l₂ : List Char) (i : ℕ) (h : i < l₁.length) :
    strFn (l₁ ++ l₂) i = strFn l₁ i := by
  unfold strFn
  rw [List.getD_eq_getElem?_getD, List.getD_eq_getElem?_getD, List.getElem?_append_left h]

theorem strFn_append_right (l₁ l₂ : List Char) (i : ℕ) :
    strFn (l₁ ++ l₂) (l₁.length + i) = strFn l₂ i := by
  unfold strFn
  rw [List.getD_eq_getElem?_getD, List.getD_eq_getElem?_getD,
    List.getElem?_append_right (by omega), Nat.add_sub_cancel_left]

theorem oligo2index_char_cons (c : Char) (l : List Char) (hc : char2int c ≠ -1)
    (hl : validList l) :
    oligo2index_char (strFn (c :: l)) 0 (l.length + 1)
      = char2int c * 4 ^ l.length + oligo2index_char (strFn l) 0 l.length := by
  have hv : validWin (strFn (c :: l)) 0 (l.length + 1) := by
    intro i hi
    cases i with
    | zero => simpa [strFn] using hc
    | succ j =>
      rw [Nat.zero_add, strFn_cons_succ]
      exact hl _ (strFn_lt l j (by omega))
  rw [oligo2index_char_eq_sum _ _ _ hv,
    oligo2index_char_eq_sum _ _ _ (validWin_of_validList l hl),
    Finset.sum_range_succ']
  have h0 : char2int (strFn (c :: l) (0 + 0)) * 4 ^ (l.length + 1 - 1 - 0)
      = char2int c * 4 ^ l.length := by
    simp [strFn]
  have hsum : ∀ k ∈ Finset.range l.length,
      char2int (strFn (c :: l) (0 + (k + 1))) * 4 ^ (l.length + 1 - 1 - (k + 1))
        = char2int (strFn l (0 + k)) * 4 ^ (l.length - 1 - k) := by
    intro k hk
    have hk' : k < l.length := Finset.mem_range.mp hk
    rw [Nat.zero_add, Nat.zero_add, strFn_cons_succ]
    have he : l.length + 1 - 1 - (k + 1) = l.length - 1 - k := by omega
    rw [he]
  rw [Finset.sum_congr rfl hsum, h0]
  ring

theorem base4_digit_unique (a a' r r' B : ℤ) (hB : 0 < B)
    (h : a * B + r = a' * B + r') (hr : 0 ≤ r) (hr' : 0 ≤ r')
    (hrB : r < B) (hr'B : r' < B) : a = a' ∧ r = r' := by
  have key : a = a' := by
    rcases lt_trichotomy a a' with hlt | heq | hgt
    · have h1 : a + 1 ≤ a' := by omega
      have h2 : (a + 1) * B ≤ a' * B := mul_le_mul_of_nonneg_right (by omega) hB.le
      nlinarith
    · exact heq
    · have h1 : a' + 1 ≤ a := by omega
      have h2 : (a' + 1) * B ≤ a * B := mul_le_mul_of_nonneg_right (by omega) hB.le
      nlinarith
  constructor
  · exact key
  · rw [key] at h; omega

theorem oligo2index_char_injective :
    ∀ l1 l2 : List Char, validList l1 → validList l2 → l1.length = l2.length →
      oligo2index_char (strFn l1) 0 l1.length = oligo2index_char (strFn l2) 0 l2.length →
      l1.map char2int = l2.map char2int := by
  intro l1
  induction l1 with
  | nil =>
    intro l2 _ _ hlen _
    rw [List.length_nil] at hlen
    rw [(List.length_eq_zero.mp hlen.symm)]
  | cons c r ih =>
    intro l2 h1 h2 hlen heq
    cases l2 with
    | nil => simp at hlen
    | cons c' r' =>
      have hc : char2int c ≠ -1 := h1 c (List.mem_cons_self c r)
      have hc' : char2int c' ≠ -1 := h2 c' (List.mem_cons_self c' r')
      have hr : validList r := fun x hx => h1 x (List.mem_cons_of_mem _ hx)
      have hr' : validList r' := fun x hx => h2 x (List.mem_cons_of_mem _ hx)
      have hlen' : r.length = r'.length := by simpa using hlen
      rw [List.length_cons, List.length_cons,
        oligo2index_char_cons c r hc hr, oligo2index_char_cons c' r' hc' hr'] at heq
      rw [hlen'] at heq
      have hb := oligo2index_char_bounds (strFn r) 0 r.length (validWin_of_validList r hr)
      have hb' := oligo2index_char_bounds (strFn r') 0 r'.length (validWin_of_validList r' hr')
      rw [hlen'] at hb
      have := base4_digit_unique (char2int c) (char2int c') _ _ ((4 : ℤ) ^ r'.length)
        (by positivity) heq hb.1 hb'.1 hb.2 hb'.2
      have htails := ih r' hr hr' hlen' (by rw [hlen']; exact this.2)
      simp only [List.map_cons, this.1, htails]

theorem markovLoop_eq_prod (T : ℤ → ℚ) (ord : ℕ) (seq : ℕ → Char) :
    ∀ fuel i p, ord ≤ i → (∀ j, i - ord ≤ j → j < i + fuel → char2int (seq j) ≠ -1) →
      markovLoop T ord seq fuel i p
        = p * ∏ t in Finset.Ico i (i + fuel),
            T (4 * oligo2index_char seq (t - ord) ord + char2int (seq t)) := by
  intro fuel
  induction fuel with
  | zero => intro i p _ _; simp [markovLoop]
  | succ n ih =>
    intro i p hoi hv
    have hsfx : char2int (seq i) ≠ -1 := hv i (by omega) (by omega)
    have hpre : validWin seq (i - ord) ord := by
      intro t ht
      exact hv (i - ord + t) (by omega) (by omega)
    have hpre' := oligo2index_char_ne_neg_one seq (i - ord) ord hpre
    simp only [markovLoop]
    rw [if_neg (by push_neg; exact ⟨hsfx, hpre'⟩)]
    rw [ih (i + 1) _ (by omega) (fun j hj1 hj2 => hv j (by omega) (by omega))]
    rw [show i + (n + 1) = i + 1 + n by omega,
      Finset.prod_eq_prod_Ico_succ_bot (by omega : i < i + 1 + n)]
    ring

theorem markovLoop_eq_zero (T : ℤ → ℚ) (ord : ℕ) (seq : ℕ → Char) :
    ∀ fuel i p, (∃ t, i ≤ t ∧ t < i + fuel ∧
        (char2int (seq t) = -1 ∨ oligo2index_char seq (t - ord) ord = -1)) →
      markovLoop T ord seq fuel i p = 0 := by
  intro fuel
  induction fuel with
  | zero => rintro i p ⟨t, h1, h2, _⟩; omega
  | succ n ih =>
    rintro i p ⟨t, h1, h2, hbad⟩
    simp only [markovLoop]
    by_cases hi : char2int (seq i) = -1 ∨ oligo2index_char seq (i - ord) ord = -1
    · rw [if_pos hi]
    · rw [if_neg hi]
      have hti : t ≠ i := by
        rintro rfl
        exact hi hbad
      exact ih (i + 1) _ ⟨t, by omega, by omega, hbad⟩

theorem loadStep_order (m : Markov) (line : List Char × ℚ) :
    (loadStep m line).order = m.order := rfl

theorem foldl_loadStep_order (lines : List (List Char × ℚ)) :
    ∀ m : Markov, (lines.foldl loadStep m).order = m.order := by
  induction lines with
  | nil => intro m; rfl
  | cons a t ih => intro m; rw [List.foldl_cons, ih, loadStep_order]

theorem foldl_loadStep_T_untouched (lines : List (List Char × ℚ)) :
    ∀ (m : Markov) (k : ℤ),
      (∀ ln ∈ lines,
        4 * oligo2index_char (strFn ln.1) 0 m.order + char2int (strFn ln.1 m.order) ≠ k) →
      (lines.foldl loadStep m).T k = m.T k := by
  induction lines with
  | nil => intro m k _; rfl
  | cons a t ih =>
    intro m k h
    rw [List.foldl_cons, ih (loadStep m a) k
      (fun ln hln => h ln (List.mem_cons_of_mem a hln))]
    show update m.T _ a.2 k = m.T k
    unfold update
    rw [if_neg]
    intro hk
    exact h a (List.mem_cons_self a t) (by rw [hk])

theorem foldl_loadStep_T_le (lines : List (List Char × ℚ)) (c : ℚ) :
    ∀ m : Markov, (∀ ln ∈ lines, c ≤ ln.2) → (∀ k, c ≤ m.T k) →
      ∀ k, c ≤ (lines.foldl loadStep m).T k := by
  induction lines with
  | nil => intro m _ hm k; exact hm k
  | cons a t ih =>
    intro m h hm k
    rw [List.foldl_cons]
    refine ih (loadStep m a) (fun ln hln => h ln (List.mem_cons_of_mem a hln)) ?_ k
    intro k'
    show c ≤ update m.T _ a.2 k'
    unfold update
    split_ifs
    · exact h a (List.mem_cons_self a t)
    · exact hm k'

theorem foldl_loadStep_T_pos (lines : List (List Char × ℚ)) :
    ∀ m : Markov, (∀ ln ∈ lines, 0 < ln.2) → (∀ k, 0 < m.T k) →
      ∀ k, 0 < (lines.foldl loadStep m).T k := by
  induction lines with
  | nil => intro m _ hm k; exact hm k
  | cons a t ih =>
    intro m h hm k
    rw [List.foldl_cons]
    refine ih (loadStep m a) (fun ln hln => h ln (List.mem_cons_of_mem a hln)) ?_ k
    intro k'
    show 0 < update m.T _ a.2 k'
    unfold update
    split_ifs
    · exact h a (List.mem_cons_self a t)
    · exact hm k'

theorem foldl_loadStep_S_pos (lines : List (List Char × ℚ)) :
    ∀ m : Markov, (∀ ln ∈ lines, 0 ≤ ln.2) → (∀ i, 0 < m.S i) →
      ∀ i, 0 < (lines.foldl loadStep m).S i := by
  induction lines with
  | nil => intro m _ hm i; exact hm i
  | cons a t ih =>
    intro m h hm i
    rw [List.foldl_cons]
    refine ih (loadStep m a) (fun ln hln => h ln (List.mem_cons_of_mem a hln)) ?_ i
    intro i'
    show 0 < update m.S _ _ i'
    unfold update
    split_ifs
    · have := h a (List.mem_cons_self a t)
      have := hm (oligo2index_char (strFn a.1) 0 m.order)
      linarith
    · exact hm i'

theorem eps_pos : 0 < eps := by norm_num [eps]

theorem normalizeMarkov_order (m : Markov) : (normalizeMarkov m).order = m.order := rfl

theorem normalizeMarkov_S_entry (m : Markov) (i : ℕ) (hi : i < 4 ^ m.order) :
    (normalizeMarkov m).S (i : ℤ)
      = m.S (i : ℤ) / ∑ k in Finset.range (4 ^ m.order), m.S (k : ℤ) := by
  show (if _ ∧ _ then _ else _) = _
  rw [if_pos]
  exact ⟨Int.ofNat_nonneg i, by exact_mod_cast hi⟩

theorem normalizeMarkov_T_entry (m : Markov) (r s : ℕ) (hr : r < 4 ^ m.order) (hs : s < 4) :
    (normalizeMarkov m).T (4 * (r : ℤ) + (s : ℤ))
      = m.T (4 * (r : ℤ) + (s : ℤ)) / rowSumT m.T r := by
  show (if _ ∧ _ then _ else _) = _
  rw [if_pos]
  · congr 1
    have hcast : 4 * (r : ℤ) + (s : ℤ) = ((4 * r + s : ℕ) : ℤ) := by push_cast; ring
    rw [hcast, Int.toNat_natCast]
    congr 1
    omega
  · constructor
    · positivity
    · have h1 : (r : ℤ) < ((4 ^ m.order : ℕ) : ℤ) := by exact_mod_cast hr
      have h2 : (s : ℤ) < 4 := by exact_mod_cast hs
      omega

theorem normalizeMarkov_S_sum (m : Markov)
    (h : ∀ i : ℕ, i < 4 ^ m.order → 0 < m.S (i : ℤ)) :
    ∑ i in Finset.range (4 ^ m.order), (normalizeMarkov m).S (i : ℤ) = 1 := by
  have hpos : 0 < ∑ k in Finset.range (4 ^ m.order), m.S (k : ℤ) := by
    refine Finset.sum_pos (fun i hi => h i (Finset.mem_range.mp hi)) ?_
    exact Finset.nonempty_range_iff.mpr (by positivity)
  rw [Finset.sum_congr rfl
    (fun i hi => normalizeMarkov_S_entry m i (Finset.mem_range.mp hi))]
  rw [← Finset.sum_div, div_self (ne_of_gt hpos)]

theorem rowSumT_pos_of_entries (T : ℤ → ℚ) (r : ℕ)
    (hnn : ∀ j : ℕ, j < 4 → 0 ≤ T (4 * (r : ℤ) + (j : ℤ)))
    (hex : ∃ j : ℕ, j < 4 ∧ 0 < T (4 * (r : ℤ) + (j : ℤ))) :
    0 < rowSumT T r := by
  obtain ⟨j, hj, hjpos⟩ := hex
  refine Finset.sum_pos' (fun i hi => hnn i (Finset.mem_range.mp hi)) ?_
  exact ⟨j, Finset.mem_range.mpr hj, hjpos⟩

theorem normalizeMarkov_T_row_sum (m : Markov) (r : ℕ) (hr : r < 4 ^ m.order)
    (hpos : ∀ j : ℕ, j < 4 → 0 < m.T (4 * (r : ℤ) + (j : ℤ))) :
    ∑ j in Finset.range 4, (normalizeMarkov m).T (4 * (r : ℤ) + (j : ℤ)) = 1 := by
  have hrow : 0 < rowSumT m.T r :=
    rowSumT_pos_of_entries m.T r (fun j hj => (hpos j hj).le) ⟨0, by omega, hpos 0 (by omega)⟩
  rw [Finset.sum_congr rfl
    (fun j hj => normalizeMarkov_T_entry m r j hr (Finset.mem_range.mp hj))]
  rw [← Finset.sum_div]
  exact div_self (ne_of_gt hrow)

theorem filterMap_ite {α β : Type} (f : α → β) (p : α → Prop) [DecidablePred p]
    (l : List α) :
    (l.filterMap fun a => if p a then none else some (f a))
      = (l.filter fun a => decide (¬ p a)).map f := by
  induction l with
  | nil => rfl
  | cons a t ih =>
    by_cases h : p a <;> simp [List.filterMap_cons, List.filter_cons, h, ih]

theorem mkRow_idx (bg : Markov) (pb : ℕ → ℕ → ℚ → ℚ) (lg : ℚ → ℚ)
    (ct : CountTable) (L : ℕ) (rc co : Bool) (i : ℕ) :
    (mkRow bg pb lg ct L rc co i).idx = i := by
  by_cases h : co = true <;> simp [mkRow, h]

theorem outputRows_eq (bg : Markov) (pb : ℕ → ℕ → ℚ → ℚ) (lg : ℚ → ℚ)
    (ct : CountTable) (L : ℕ) (rc co : Bool) :
    outputRows bg pb lg ct L rc co
      = ((List.range ct.size).filter fun i => decide (¬ ct.count_table i = 0)).map
          (mkRow bg pb lg ct L rc co) :=
  filterMap_ite _ _ _

theorem outputRows_idx_map (bg : Markov) (pb : ℕ → ℕ → ℚ → ℚ) (lg : ℚ → ℚ)
    (ct : CountTable) (L : ℕ) (rc co : Bool) :
    (outputRows bg pb lg ct L rc co).map Row.idx
      = (List.range ct.size).filter fun i => decide (¬ ct.count_table i = 0) := by
  rw [outputRows_eq, List.map_map]
  have hcomp : (Row.idx ∘ mkRow bg pb lg ct L rc co) = fun i => i :=
    funext fun i => mkRow_idx bg pb lg ct L rc co i
  rw [hcomp, List.map_id']

/-- Concrete order-1 model whose `S` distinguishes index 0 from index 1
(all transition entries 1/4). -/
def exMarkovC1 : Markov :=
  { order := 1, S := fun i => if i = 0 then 1 / 2 else 1 / 4, T := fun _ => 1 / 4 }

/-- Concrete window ACA (length 3 = order + 2). -/
def exListC1 : List Char := ['A', 'C', 'A']

/-- An order-1 frequency file whose four lines assign frequency 0 to every
successor of the prefix A (and nothing else). -/
def exLinesC3 : List (List Char × ℚ) :=
  [(['A', 'A'], 0), (['A', 'C'], 0), (['A', 'G'], 0), (['A', 'T'], 0)]

/-- The model loaded from `exLinesC3`. -/
def exModelC3 : Markov := (load_markov exLinesC3).getD (new_markov 0)

/-- An order-1 frequency file with two lines of positive frequency
(identifiers AA and CA; the pair (prefix A, successor C) is absent). -/
def exLinesLoad : List (List Char × ℚ) := [(['A', 'A'], 1), (['C', 'A'], 2)]

/-- The model loaded from `exLinesLoad`. -/
def exModelLoad : Markov := (load_markov exLinesLoad).getD (new_markov 0)

/-- Concrete order-2 model with every `S` and `T` entry equal to 1. -/
def exMarkovC4 : Markov := { order := 2, S := fun _ => 1, T := fun _ => 1 }

/-- A length-2 window whose second character is an ambiguous base. -/
def exListC4 : List Char := ['A', 'N']

/-- Concrete order-1 background model for the main-loop instances. -/
def exBG : Markov := { order := 1, S := fun _ => 1 / 2, T := fun _ => 1 / 4 }

/-- Constant stand-in for the binomial tail parameter of the embedding. -/
def exPb : ℕ → ℕ → ℚ → ℚ := fun _ _ _ => 1

/-- Constant stand-in for the log10 parameter of the embedding. -/
def exLg : ℚ → ℚ := fun _ => 0

/-- A count table with a single nonzero count (index 1, count 3). -/
def exCT6 : CountTable :=
  { size := 4, count_table := fun i => if i = 1 then 3 else 0,
    position_count := 4, test_count := 2, palindromic := fun _ => false }

/-- The single record the main loop emits for `exCT6` (enrichment mode,
reverse-complement folding on, oligomer length 1). -/
def exRowC6 : Row := mkRow exBG exPb exLg exCT6 1 true false 1

/-- A count table with a single nonzero count (index 2, count 2) and an
odd position count, so that `N * p` is not an integer. -/
def exCT7 : CountTable :=
  { size := 4, count_table := fun i => if i = 2 then 2 else 0,
    position_count := 3, test_count := 5, palindromic := fun _ => false }

/-- The single record the main loop emits for `exCT7` (enrichment mode,
no folding, oligomer length 1). -/
def exRowC7 : Row := mkRow exBG exPb exLg exCT7 1 false false 2

/-- Concrete order-1 model whose `T` distinguishes entry 0 from entry 1. -/
def exMarkovC10 : Markov :=
  { order := 1, S := fun _ => 1, T := fun k => if k = 0 then 1 / 2 else 1 / 4 }

/-- Concrete sequence AAAC; its window at offset 2 is AC. -/
def exListC10 : List Char := ['A', 'A', 'A', 'C']

theorem specRevComp_length (l : List Char) : (specRevComp l).length = l.length := by
  simp [specRevComp]

theorem validList_specRevComp (l : List Char) (h : validList l) :
    validList (specRevComp l) := by
  intro x hx
  simp only [specRevComp, List.mem_reverse, List.mem_map] at hx
  obtain ⟨y, hy, rfl⟩ := hx
  exact compChar_valid y (h y hy)

theorem strFn_append_last (l₁ : List Char) (x : Char) :
    strFn (l₁ ++ [x]) l₁.length = x := by
  simp [strFn]

/-- C2: for every string `s` of length `L` over the 4-letter alphabet
(either case), the reverse-complement encoding `oligo2index_rc_char(s, 0, L)`
equals the forward encoding `oligo2index_char` of the string obtained by
complementing each symbol (A↔T, C↔G) and reversing the order. -/
theorem oligo2index_rc_char_eq_forward_revcomp (l : List Char) (h : validList l) :
    oligo2index_rc_char (strFn l) 0 l.length
      = oligo2index_char (strFn (specRevComp l)) 0 l.length := by
  induction l with
  | nil => rfl
  | cons c rest ih =>
    have hc : char2int c ≠ -1 := h c (List.mem_cons_self c rest)
    have hrest : validList rest := fun x hx => h x (List.mem_cons_of_mem c hx)
    have hcv : validList (specRevComp rest) := validList_specRevComp rest hrest
    have hlen : (specRevComp rest).length = rest.length := specRevComp_length rest
    have hbounds :
        0 ≤ oligo2index_char (strFn (specRevComp rest)) 0 rest.length ∧
        oligo2index_char (strFn (specRevComp rest)) 0 rest.length < 4 ^ rest.length := by
      have := oligo2index_char_bounds (strFn (specRevComp rest)) 0 (specRevComp rest).length
        (validWin_of_validList _ hcv)
      rwa [hlen] at this
    have hshift : oligo2index_rc_char (strFn (c :: rest)) (0 + 1) rest.length
        = oligo2index_rc_char (strFn rest) 0 rest.length := by
      refine oligo2index_rc_char_congr _ _ rest.length (0 + 1) 0 (fun i hi => ?_)
      rw [Nat.zero_add, Nat.zero_add, Nat.add_comm 1 i, strFn_cons_succ]
    have hsplit : specRevComp (c :: rest) = specRevComp rest ++ [compChar c] := by
      simp [specRevComp]
    have hr' : oligo2index_char (strFn (specRevComp (c :: rest))) 0 rest.length
        = oligo2index_char (strFn (specRevComp rest)) 0 rest.length := by
      refine oligo2index_char_congr _ _ 0 0 rest.length (fun i hi => ?_)
      rw [hsplit]
      exact strFn_append_lt _ _ _ (by omega)
    have hlast : strFn (specRevComp (c :: rest)) (0 + rest.length) = compChar c := by
      rw [Nat.zero_add, hsplit, show rest.length = (specRevComp rest).length from hlen.symm,
        strFn_append_last]
    show oligo2index_rc_char (strFn (c :: rest)) 0 (rest.length + 1)
        = oligo2index_char (strFn (specRevComp (c :: rest))) 0 (rest.length + 1)
    simp only [oligo2index_rc_char, oligo2index_char]
    rw [hlast, char2int_compChar c hc]
    have hc0 : strFn (c :: rest) 0 = c := rfl
    rw [hc0, hshift, ih hrest, hr']
    have hcr := char2int_range c hc
    rw [if_neg hc, if_neg (by omega), if_neg (by omega), if_neg (by omega)]
    ring

/-- C2 witness: the theorem instantiated at the concrete window ACG. -/
theorem oligo2index_rc_char_eq_forward_revcomp_witness :
    validList ['A', 'C', 'G'] ∧
      oligo2index_rc_char (strFn ['A', 'C', 'G']) 0 3
        = oligo2index_char (strFn (specRevComp ['A', 'C', 'G'])) 0 3 :=
  ⟨by decide, oligo2index_rc_char_eq_forward_revcomp ['A', 'C', 'G'] (by decide)⟩

theorem strFn_get (l : List Char) (i : ℕ) (h : i < l.length) :
    strFn l i = l[i] := by
  unfold strFn
  rw [List.getD_eq_getElem?_getD, List.getElem?_eq_getElem h]
  rfl

/-- C5: on a window whose characters are all in the alphabet (either case),
`oligo2index_char` returns exactly `Σ symbol_value(i) · 4^(L-1-i)` (most
significant symbol first), a value in `[0, 4^L)` that determines the
symbol values of the window (distinct windows of symbols get distinct
indices); when some character of the window is outside the alphabet it
returns `-1`. -/
theorem oligo2index_char_spec (l : List Char) :
    (validList l →
      oligo2index_char (strFn l) 0 l.length
          = ∑ i in Finset.range l.length, char2int (strFn l i) * 4 ^ (l.length - 1 - i)
        ∧ 0 ≤ oligo2index_char (strFn l) 0 l.length
        ∧ oligo2index_char (strFn l) 0 l.length < 4 ^ l.length
        ∧ ∀ l' : List Char, validList l' → l'.length = l.length →
            oligo2index_char (strFn l') 0 l'.length = oligo2index_char (strFn l) 0 l.length →
            l'.map char2int = l.map char2int)
    ∧ ((∃ c ∈ l, char2int c = -1) → oligo2index_char (strFn l) 0 l.length = -1) := by
  constructor
  · intro h
    have hw := validWin_of_validList l h
    refine ⟨?_, (oligo2index_char_bounds _ _ _ hw).1, (oligo2index_char_bounds _ _ _ hw).2,
      fun l' h' hlen heq => oligo2index_char_injective l' l h' h hlen heq⟩
    rw [oligo2index_char_eq_sum _ _ _ hw]
    exact Finset.sum_congr rfl (fun i _ => by rw [Nat.zero_add])
  · rintro ⟨c, hc, hbad⟩
    obtain ⟨i, hi, rfl⟩ := List.getElem_of_mem hc
    refine oligo2index_char_of_invalid _ _ _ ⟨i, hi, ?_⟩
    rw [Nat.zero_add, strFn_get l i hi]
    exact hbad

/-- C5 witness: the theorem instantiated at the window AC, whose index
evaluates to 1. -/
theorem oligo2index_char_spec_witness :
    oligo2index_char (strFn ['A', 'C']) 0 2 = 1
    ∧ ((validList ['A', 'C'] →
          oligo2index_char (strFn ['A', 'C']) 0 2
              = ∑ i in Finset.range 2, char2int (strFn ['A', 'C'] i) * 4 ^ (2 - 1 - i)
            ∧ 0 ≤ oligo2index_char (strFn ['A', 'C']) 0 2
            ∧ oligo2index_char (strFn ['A', 'C']) 0 2 < 4 ^ 2
            ∧ ∀ l' : List Char, validList l' → l'.length = 2 →
                oligo2index_char (strFn l') 0 l'.length = oligo2index_char (strFn ['A', 'C']) 0 2 →
                l'.map char2int = ['A', 'C'].map char2int)
        ∧ ((∃ c ∈ ['A', 'C'], char2int c = -1) →
            oligo2index_char (strFn ['A', 'C']) 0 2 = -1)) :=
  ⟨by decide, oligo2index_char_spec ['A', 'C']⟩

/-- C10: `markov_P` uses its `pos` argument only to compute the initial
prefix factor — whenever two offsets give the same initial prefix index the
whole likelihood is the same, because every transition factor of the loop
reads the suffix symbol at absolute position `i` and the prefix window at
absolute position `i - order` — and consequently evaluating a window at
offset 2 of AAAC differs from evaluating the subsequence AC at offset 0
(concretely: 1/2 versus 1/4 for `exMarkovC10`). -/
theorem markov_P_pos_only_initial :
    (∀ (m : Markov) (seq : ℕ → Char) (pos pos' L : ℕ),
        oligo2index_char seq pos (L - 1) = oligo2index_char seq pos' (L - 1) →
        markov_P m seq pos L = markov_P m seq pos' L)
    ∧ markov_P exMarkovC10 (strFn exListC10) 2 2
        ≠ markov_P exMarkovC10 (strFn (exListC10.drop 2)) 0 2 := by
  constructor
  · intro m seq pos pos' L h
    unfold markov_P
    rw [h]
  · have h1 : markov_P exMarkovC10 (strFn exListC10) 2 2 = 1 / 2 := by
      simp +decide [markov_P, markovLoop, exMarkovC10, oligo2index_char, char2int, strFn,
        exListC10]
    have h2 : markov_P exMarkovC10 (strFn (exListC10.drop 2)) 0 2 = 1 / 4 := by
      simp +decide [markov_P, markovLoop, exMarkovC10, oligo2index_char, char2int, strFn,
        exListC10]
    rw [h1, h2]
    norm_num

/-- C10 witness: the first part of the theorem applied at two concrete
offsets (0 and 1 inside AAAC) whose length-1 prefixes agree. -/
theorem markov_P_pos_only_initial_witness :
    markov_P exMarkovC10 (strFn exListC10) 0 2 = markov_P exMarkovC10 (strFn exListC10) 1 2 :=
  markov_P_pos_only_initial.1 exMarkovC10 (strFn exListC10) 0 1 2 (by decide)

/-- C8: in both count-only and enrichment modes the records are emitted in
strictly ascending order of oligomer index, an oligomer with observed
count zero produces no record, and every oligomer index below the table
size with nonzero count produces exactly one record. -/
theorem outputRows_sorted_complete (bg : Markov) (pb : ℕ → ℕ → ℚ → ℚ) (lg : ℚ → ℚ)
    (ct : CountTable) (L : ℕ) (rc co : Bool) :
    List.Pairwise (fun a b => a < b) ((outputRows bg pb lg ct L rc co).map Row.idx)
    ∧ ∀ i : ℕ, ((outputRows bg pb lg ct L rc co).map Row.idx).count i
        = if i < ct.size ∧ ct.count_table i ≠ 0 then 1 else 0 := by
  rw [outputRows_idx_map]
  constructor
  · exact List.Pairwise.sublist (List.filter_sublist _) (List.pairwise_lt_range ct.size)
  · intro i
    by_cases hmem :
        i ∈ (List.range ct.size).filter fun a => decide (¬ ct.count_table a = 0)
    · rw [List.count_eq_one_of_mem ((List.nodup_range ct.size).filter _) hmem, if_pos]
      have h := List.mem_filter.mp hmem
      exact ⟨List.mem_range.mp h.1, of_decide_eq_true h.2⟩
    · rw [List.count_eq_zero_of_not_mem hmem, if_neg]
      intro ⟨h1, h2⟩
      exact hmem (List.mem_filter.mpr ⟨List.mem_range.mpr h1, decide_eq_true h2⟩)

/-- C6: in enrichment mode, the background probability `p` of a reported
oligomer is twice the likelihood of its decoded sequence exactly when
reverse-complement folding is active and the oligomer is not flagged
palindromic, and is the likelihood unchanged otherwise. -/
theorem enrichment_p_doubled (bg : Markov) (pb : ℕ → ℕ → ℚ → ℚ) (lg : ℚ → ℚ)
    (ct : CountTable) (L : ℕ) (rc : Bool) (r : Row)
    (hr : r ∈ outputRows bg pb lg ct L rc false) :
    r.col3 = if rc = true ∧ ct.palindromic r.idx = false
      then 2 * markov_P bg (strFn (index2oligo r.idx L)) 0 L
      else markov_P bg (strFn (index2oligo r.idx L)) 0 L := by
  rw [outputRows_eq] at hr
  obtain ⟨i, _, rfl⟩ := List.mem_map.mp hr
  rw [mkRow_idx]
  simp [mkRow]

/-- C6 witness: the theorem at the concrete single-record run `exCT6`
(folding on, index 1 not palindromic). -/
theorem enrichment_p_doubled_witness :
    exRowC6 ∈ outputRows exBG exPb exLg exCT6 1 true false
    ∧ exRowC6.col3
        = if (true = true ∧ exCT6.palindromic exRowC6.idx = false)
          then 2 * markov_P exBG (strFn (index2oligo exRowC6.idx 1)) 0 1
          else markov_P exBG (strFn (index2oligo exRowC6.idx 1)) 0 1 := by
  have hmem : exRowC6 ∈ outputRows exBG exPb exLg exCT6 1 true false := by
    rw [show outputRows exBG exPb exLg exCT6 1 true false = [exRowC6] from rfl]
    exact List.mem_singleton.mpr rfl
  exact ⟨hmem, enrichment_p_doubled exBG exPb exLg exCT6 1 true exRowC6 hmem⟩

/-- C7 (amended): in enrichment mode the reported expected count is the
truncation toward zero of `N * p` (it is stored into a C `long`), where
`N` is the frozen position count and `p` the — possibly doubled —
background probability of the record. -/
theorem enrichment_n_exp_trunc (bg : Markov) (pb : ℕ → ℕ → ℚ → ℚ) (lg : ℚ → ℚ)
    (ct : CountTable) (L : ℕ) (rc : Bool) (r : Row)
    (hr : r ∈ outputRows bg pb lg ct L rc false) :
    r.n_exp = truncQ ((ct.position_count : ℚ) * r.col3) := by
  rw [outputRows_eq] at hr
  obtain ⟨i, _, rfl⟩ := List.mem_map.mp hr
  simp [mkRow]

/-- C7 counterexample: a concrete run (N = 3, p = 1/2) in which the
reported expected count is 1 while `N · p = 3/2`, refuting exact equality
`n_exp = N · p`. -/
theorem enrichment_n_exp_not_exact :
    exRowC7 ∈ outputRows exBG exPb exLg exCT7 1 false false
    ∧ (exRowC7.n_exp : ℚ) ≠ (exCT7.position_count : ℚ) * exRowC7.col3 := by
  constructor
  · rw [show outputRows exBG exPb exLg exCT7 1 false false = [exRowC7] from rfl]
    exact List.mem_singleton.mpr rfl
  · have hp : exRowC7.col3 = 1 / 2 := by
      simp +decide [exRowC7, mkRow, exCT7, exBG, markov_P, markovLoop, oligo2index_char,
        char2int, strFn, index2oligo, int2char]
    have hn : exRowC7.n_exp = 1 := by
      simp +decide [exRowC7, mkRow, exCT7, exBG, markov_P, markovLoop, oligo2index_char,
        char2int, strFn, index2oligo, int2char, truncQ]
      norm_num
    rw [hp, hn, exCT7]
    norm_num

/-- C7 witness: the amended theorem at the concrete run `exCT7`. -/
theorem enrichment_n_exp_trunc_witness :
    exRowC7 ∈ outputRows exBG exPb exLg exCT7 1 false false
    ∧ exRowC7.n_exp = truncQ ((exCT7.position_count : ℚ) * exRowC7.col3) := by
  have hmem : exRowC7 ∈ outputRows exBG exPb exLg exCT7 1 false false := by
    rw [show outputRows exBG exPb exLg exCT7 1 false false = [exRowC7] from rfl]
    exact List.mem_singleton.mpr rfl
  exact ⟨hmem, enrichment_n_exp_trunc exBG exPb exLg exCT7 1 false exRowC7 hmem⟩

/-- C4 (amended): provided the window length is at least `order + 1` (so
that the transition loop runs and reads the final symbol), a non-ACGT
symbol anywhere in the window at offset 0 makes `markov_P` return
exactly 0. -/
theorem markov_P_zero_of_invalid (m : Markov) (seq : ℕ → Char) (L j : ℕ)
    (hL : m.order + 1 ≤ L) (hj : j < L) (hbad : char2int (seq j) = -1) :
    markov_P m seq 0 L = 0 := by
  by_cases hpre : oligo2index_char seq 0 (L - 1) = -1
  · unfold markov_P
    rw [if_pos hpre]
  · have hw := validWin_of_ne_neg_one seq 0 (L - 1) hpre
    have hjL : j = L - 1 := by
      by_contra hne
      have hjlt : j < L - 1 := by omega
      have hok := hw j hjlt
      rw [Nat.zero_add] at hok
      exact hok hbad
    unfold markov_P
    rw [if_neg hpre]
    apply markovLoop_eq_zero
    exact ⟨L - 1, by omega, by omega, Or.inl (hjL ▸ hbad)⟩

/-- C4 counterexample: with an order-2 model and a window of length 2
(shorter than order + 1) whose second character is the ambiguous base N,
`markov_P` returns 1, not 0 — the transition loop is empty and the final
symbol of the window is never examined. -/
theorem markov_P_nonzero_with_invalid :
    char2int (strFn exListC4 1) = -1
    ∧ markov_P exMarkovC4 (strFn exListC4) 0 2 ≠ 0 := by
  constructor
  · decide
  · have h : markov_P exMarkovC4 (strFn exListC4) 0 2 = 1 := by
      simp +decide [markov_P, markovLoop, exMarkovC4, oligo2index_char, char2int, strFn,
        exListC4]
    rw [h]
    norm_num

/-- C4 witness: the amended theorem at an order-1 model and the window AN
of length 2 = order + 1. -/
theorem markov_P_zero_of_invalid_witness :
    markov_P exMarkovC1 (strFn exListC4) 0 2 = 0 :=
  markov_P_zero_of_invalid exMarkovC1 (strFn exListC4) 2 1 (by decide) (by decide) (by decide)

/-- C1: `markov_P` computes its initial factor from the length-(L-1)
prefix of the window, not from the length-order prefix the claim (and the
spec's likelihood formula) prescribe.  At the valid order-1 window ACA of
length 3 the code yields `S[index("AC")] · T[A→C] · T[C→A]`, which differs
from the claim's `S[index("A")] · T[A→C] · T[C→A]` on a model whose `S`
separates those two entries (and for prefixes such as TA the code's `S`
index 12 even exceeds the `S` table of size 4^order = 4). -/
theorem markov_P_initial_factor_bug :
    validList exListC1
    ∧ markov_P exMarkovC1 (strFn exListC1) 0 3
        = exMarkovC1.S (oligo2index_char (strFn exListC1) 0 2)
          * (exMarkovC1.T (4 * oligo2index_char (strFn exListC1) 0 1
                + char2int (strFn exListC1 1))
             * exMarkovC1.T (4 * oligo2index_char (strFn exListC1) 1 1
                + char2int (strFn exListC1 2)))
    ∧ markov_P exMarkovC1 (strFn exListC1) 0 3
        ≠ exMarkovC1.S (oligo2index_char (strFn exListC1) 0 1)
          * (exMarkovC1.T (4 * oligo2index_char (strFn exListC1) 0 1
                + char2int (strFn exListC1 1))
             * exMarkovC1.T (4 * oligo2index_char (strFn exListC1) 1 1
                + char2int (strFn exListC1 2))) := by
  refine ⟨by decide, ?_, ?_⟩
  · have h : markov_P exMarkovC1 (strFn exListC1) 0 3 = 1 / 64 := by
      simp +decide [markov_P, markovLoop, exMarkovC1, oligo2index_char, char2int, strFn,
        exListC1]
      norm_num
    rw [h]
    have h2 : oligo2index_char (strFn exListC1) 0 2 = 1 := by decide
    have h3 : oligo2index_char (strFn exListC1) 0 1 = 0 := by decide
    have h4 : oligo2index_char (strFn exListC1) 1 1 = 1 := by decide
    have h5 : char2int (strFn exListC1 1) = 1 := by decide
    have h6 : char2int (strFn exListC1 2) = 0 := by decide
    rw [h2, h3, h4, h5, h6]
    norm_num [exMarkovC1]
  · have h : markov_P exMarkovC1 (strFn exListC1) 0 3 = 1 / 64 := by
      simp +decide [markov_P, markovLoop, exMarkovC1, oligo2index_char, char2int, strFn,
        exListC1]
      norm_num
    rw [h]
    have h3 : oligo2index_char (strFn exListC1) 0 1 = 0 := by decide
    have h4 : oligo2index_char (strFn exListC1) 1 1 = 1 := by decide
    have h5 : char2int (strFn exListC1 1) = 1 := by decide
    have h6 : char2int (strFn exListC1 2) = 0 := by decide
    rw [h3, h4, h5, h6]
    norm_num [exMarkovC1]

/-- C3 (amended): when `load_markov` succeeds on a well-formed frequency
file — at least one data line, every identifier of length order+1 over the
alphabet — whose frequencies are in addition strictly positive, then in
exact arithmetic every row of `T` sums to exactly 1 and `S` sums to
exactly 1 over all `4^order` prefixes. -/
theorem load_markov_sums (lines : List (List Char × ℚ)) (m : Markov)
    (hload : load_markov lines = some m)
    (hids : ∀ ln ∈ lines, ln.1.length = m.order + 1 ∧ validList ln.1)
    (hfreq : ∀ ln ∈ lines, 0 < ln.2) :
    (∑ i in Finset.range (4 ^ m.order), m.S (i : ℤ)) = 1
    ∧ ∀ r : ℕ, r < 4 ^ m.order →
        (∑ j in Finset.range 4, m.T (4 * (r : ℤ) + (j : ℤ))) = 1 := by
  cases lines with
  | nil => simp [load_markov] at hload
  | cons f t =>
    simp only [load_markov] at hload
    have hm := Option.some.inj hload
    subst hm
    have hSpos : ∀ i : ℤ, 0 < ((f :: t).foldl loadStep (new_markov (f.1.length - 1))).S i :=
      foldl_loadStep_S_pos (f :: t) (new_markov (f.1.length - 1))
        (fun ln hln => (hfreq ln hln).le) (fun _ => eps_pos)
    have hTpos : ∀ k : ℤ, 0 < ((f :: t).foldl loadStep (new_markov (f.1.length - 1))).T k :=
      foldl_loadStep_T_pos (f :: t) (new_markov (f.1.length - 1))
        (fun ln hln => hfreq ln hln) (fun _ => eps_pos)
    constructor
    · exact normalizeMarkov_S_sum _ (fun i _ => hSpos (i : ℤ))
    · intro r hr
      exact normalizeMarkov_T_row_sum _ r hr (fun j _ => hTpos _)

/-- C3 counterexample: the file `exLinesC3` is well-formed in the claim's
sense (one data line at least, every identifier of length order+1 over
the alphabet), yet because its four lines overwrite the whole transition
row of prefix A with frequency 0, that row of the loaded model sums to 0
(0/0 in the C code's doubles is a NaN), not 1. -/
theorem load_markov_row_sum_cex :
    load_markov exLinesC3 = some exModelC3
    ∧ (∀ ln ∈ exLinesC3, ln.1.length = exModelC3.order + 1 ∧ validList ln.1)
    ∧ (∑ j in Finset.range 4, exModelC3.T (4 * ((0 : ℕ) : ℤ) + (j : ℤ))) = 0
    ∧ (∑ j in Finset.range 4, exModelC3.T (4 * ((0 : ℕ) : ℤ) + (j : ℤ))) ≠ 1 := by
  have heval : ∀ j : ℕ, j < 4 → exModelC3.T (4 * ((0 : ℕ) : ℤ) + (j : ℤ)) = 0 := by
    intro j hj
    interval_cases j <;>
      simp +decide [exModelC3, exLinesC3, load_markov, loadStep, normalizeMarkov,
        new_markov, update, rowSumT, oligo2index_char, char2int, strFn, eps,
        Finset.sum_range_succ, Finset.sum_range_zero]
  have hsum : (∑ j in Finset.range 4, exModelC3.T (4 * ((0 : ℕ) : ℤ) + (j : ℤ))) = 0 := by
    rw [Finset.sum_congr rfl (fun j hj => heval j (Finset.mem_range.mp hj))]
    simp
  exact ⟨rfl, by decide, hsum, by rw [hsum]; norm_num⟩

/-- C3 witness: the amended theorem at the two-line positive-frequency
file `exLinesLoad`. -/
theorem load_markov_sums_witness :
    load_markov exLinesLoad = some exModelLoad
    ∧ ((∑ i in Finset.range (4 ^ exModelLoad.order), exModelLoad.S (i : ℤ)) = 1
       ∧ ∀ r : ℕ, r < 4 ^ exModelLoad.order →
           (∑ j in Finset.range 4, exModelLoad.T (4 * (r : ℤ) + (j : ℤ))) = 1) :=
  ⟨rfl, load_markov_sums exLinesLoad exModelLoad rfl (by decide)
    (by
      intro ln hln
      simp only [exLinesLoad, List.mem_cons, List.not_mem_nil, or_false] at hln
      rcases hln with rfl | rfl <;> norm_num)⟩

/-- C9: for a well-formed frequency file with nonnegative frequencies and
a (prefix, trailing-symbol) pair that appears on no data line, the loaded
transition entry `T[4*prefix+symbol]` is exactly the allocation floor
`1e-100` divided by the row sum — in particular strictly positive, never
zero. -/
theorem load_markov_missing_pair (lines : List (List Char × ℚ)) (m : Markov)
    (hload : load_markov lines = some m)
    (hids : ∀ ln ∈ lines, ln.1.length = m.order + 1 ∧ validList ln.1)
    (hfreq : ∀ ln ∈ lines, 0 ≤ ln.2)
    (r s : ℕ) (hr : r < 4 ^ m.order) (hs : s < 4)
    (hmiss : ∀ ln ∈ lines,
      ¬(oligo2index_char (strFn ln.1) 0 m.order = (r : ℤ)
        ∧ char2int (strFn ln.1 m.order) = (s : ℤ))) :
    0 < m.T (4 * (r : ℤ) + (s : ℤ))
    ∧ m.T (4 * (r : ℤ) + (s : ℤ))
        = eps / rowSumT ((lines.foldl loadStep (new_markov m.order)).T) r := by
  cases lines with
  | nil => simp [load_markov] at hload
  | cons f t =>
    simp only [load_markov] at hload
    have hm := Option.some.inj hload
    have horder : f.1.length - 1 = m.order := by
      have h1 := (hids f (List.mem_cons_self f t)).1
      omega
    rw [← horder, ← hm]
    have huntouched :
        ((f :: t).foldl loadStep (new_markov (f.1.length - 1))).T (4 * (r : ℤ) + (s : ℤ))
          = eps := by
      refine foldl_loadStep_T_untouched (f :: t) (new_markov (f.1.length - 1))
        (4 * (r : ℤ) + (s : ℤ)) ?_
      intro ln hln hk
      have hord : (new_markov (f.1.length - 1)).order = m.order := horder
      rw [hord] at hk
      obtain ⟨hlnlen, hlnvalid⟩ := hids ln hln
      have hw : validWin (strFn ln.1) 0 m.order := by
        intro i hi
        rw [Nat.zero_add]
        exact hlnvalid _ (strFn_lt ln.1 i (by omega))
      have hb := oligo2index_char_bounds (strFn ln.1) 0 m.order hw
      have hlast : char2int (strFn ln.1 m.order) ≠ -1 :=
        hlnvalid _ (strFn_lt ln.1 m.order (by omega))
      have hlr := char2int_range _ hlast
      have hs4 : ((s : ℤ)) < 4 := by exact_mod_cast hs
      exact hmiss ln hln ⟨by omega, by omega⟩
    have hnonneg : ∀ k, 0 ≤ ((f :: t).foldl loadStep (new_markov (f.1.length - 1))).T k :=
      foldl_loadStep_T_le (f :: t) 0 (new_markov (f.1.length - 1)) hfreq
        (fun _ => eps_pos.le)
    have hrow : 0 < rowSumT ((f :: t).foldl loadStep (new_markov (f.1.length - 1))).T r :=
      rowSumT_pos_of_entries _ r (fun j _ => hnonneg _)
        ⟨s, hs, by rw [huntouched]; exact eps_pos⟩
    have hrM : r < 4 ^ ((f :: t).foldl loadStep (new_markov (f.1.length - 1))).order := by
      rw [show ((f :: t).foldl loadStep (new_markov (f.1.length - 1))).order = m.order
        from (foldl_loadStep_order (f :: t) (new_markov (f.1.length - 1))).trans horder]
      exact hr
    have hentry := normalizeMarkov_T_entry
      ((f :: t).foldl loadStep (new_markov (f.1.length - 1))) r s hrM hs
    rw [hentry, huntouched]
    exact ⟨div_pos eps_pos hrow, rfl⟩

/-- C9 witness: the theorem at the two-line file `exLinesLoad` and the
absent pair (prefix A, successor C). -/
theorem load_markov_missing_pair_witness :
    0 < exModelLoad.T (4 * ((0 : ℕ) : ℤ) + ((1 : ℕ) : ℤ))
    ∧ exModelLoad.T (4 * ((0 : ℕ) : ℤ) + ((1 : ℕ) : ℤ))
        = eps / rowSumT ((exLinesLoad.foldl loadStep (new_markov exModelLoad.order)).T) 0 :=
  load_markov_missing_pair exLinesLoad exModelLoad rfl (by decide)
    (by
      intro ln hln
      simp only [exLinesLoad, List.mem_cons, List.not_mem_nil, or_false] at hln
      rcases hln with rfl | rfl <;> norm_num)
    0 1 (by decide) (by decide) (by decide)

end WordAnalysis
